import Mathlib

/-!
A shallow embedding of `src/lib/customConfigParser.py`: the `_read` method of
`customConfigParser` (a subclass of Python's `configparser.RawConfigParser`)
together with the pieces of the inherited `RawConfigParser` machinery that
`_read` uses (`SECTCRE`, the option regex obtained from
`_OPT_NV_TMPL` for the delimiter set `("=",)`, `optionxform = str.lower`,
`_handle_error`, `_join_multiline_values`).

Strings are modelled as `List Char`; input is the list of physical lines
(without their trailing newline, which `_read` only ever strips away).
Character predicates model Python's `str.isspace` / `str.lower` on the ASCII
range, which is the range exercised by configuration files and by every
claim below.
-/

namespace CCP

/-- Python `str.isspace` on the ASCII range: space, tab, newline, vertical
tab, form feed, carriage return. -/
def pyIsSpace (c : Char) : Bool :=
  c = ' ' || c = '\t' || c = '\n' || c = '\x0b' || c = '\x0c' || c = '\r'

/-- Python `str.strip()` with no argument: drop leading and trailing
whitespace. -/
def pyStrip (l : List Char) : List Char :=
  ((l.dropWhile pyIsSpace).reverse.dropWhile pyIsSpace).reverse

/-- Python `str.rstrip()`: drop trailing whitespace. -/
def pyRstrip (l : List Char) : List Char :=
  (l.reverse.dropWhile pyIsSpace).reverse

/-- Python `str.lower` on the ASCII range (the parser's `optionxform`). -/
def pyLower (l : List Char) : List Char :=
  l.map Char.toLower

/-- Helper for `strFind`: first index (counting from `i`) at which `pat`
occurs in the remaining text `l`. -/
def strFindAux (pat : List Char) : List Char → Nat → Option Nat
  | l, i =>
    if pat.isPrefixOf l then some i
    else
      match l with
      | [] => none
      | _ :: t => strFindAux pat t (i + 1)

/-- Python `line.find(pat, start)`: index of the first occurrence of `pat`
at position `≥ start`, `none` for Python's `-1`.  Like Python, a start
beyond the end of the string finds nothing. -/
def strFind (l : List Char) (pat : List Char) (start : Nat) : Option Nat :=
  if l.length < start then none else strFindAux pat (l.drop start) start

/-- Predicate: `pat` occurs in `l` at index `i`. -/
def occursAt (l pat : List Char) (i : Nat) : Prop :=
  pat.isPrefixOf (l.drop i)

instance (l pat : List Char) (i : Nat) : Decidable (occursAt l pat i) := by
  unfold occursAt; infer_instance

/-- The whitespace-adjacency test of `_read` (line 58 of the source): an
inline-comment candidate at index `i` counts only if `i == 0` or the
preceding character is whitespace. -/
def validPos (line : List Char) (i : Nat) : Bool :=
  i = 0 ||
    (match line.get? (i - 1) with
     | some c => pyIsSpace c
     | none => false)

/-- Python `min` folded into the running `comment_start` (which starts out as
`sys.maxsize`, modelled as `none`). -/
def minOpt : Option Nat → Nat → Option Nat
  | none, n => some n
  | some m, n => some (min m n)

/-- One iteration of the `while` loop of `_read` (lines 51-60): every
surviving prefix advances to its next occurrence (searching from one past
the previously found index); a whitespace-adjacent occurrence lowers the
round's `comment_start`.  The entries carry the next search start. -/
def inlineRound (line : List Char) (ps : List (List Char × Nat)) :
    List (List Char × Nat) × Option Nat :=
  ps.foldl
    (fun acc pr =>
      match strFind line pr.1 pr.2 with
      | none => acc
      | some li =>
          (acc.1 ++ [(pr.1, li + 1)],
           if validPos line li then minOpt acc.2 li else acc.2))
    ([], none)

/-- The `while comment_start == sys.maxsize and inline_prefixes` loop of
`_read`, with explicit fuel (each round strictly advances every surviving
search start, so `line.length + 2` rounds always suffice). -/
def inlineScan (line : List Char) : Nat → List (List Char × Nat) → Option Nat
  | _, [] => none
  | 0, _ :: _ => none
  | fuel + 1, ps =>
      match inlineRound line ps with
      | (_, some i) => some i
      | (ps', none) => inlineScan line fuel ps'

/-- The inline-comment-start computation of `_read` for a given set of
inline comment prefixes (initial search index `-1`, i.e. next start `0`). -/
def inlineCommentStart (pfxs : List (List Char)) (line : List Char) : Option Nat :=
  inlineScan line (line.length + 2) (pfxs.map (fun p => (p, 0)))

/-- Parser configuration (the fields of `RawConfigParser` that `_read`
consults).  `customConfigParser.__init__` fixes a particular value,
`cfg0` below. -/
structure PCfg where
  commentPrefixes : List (List Char)
  inlinePrefixes : List (List Char)
  emptyLinesInValues : Bool
  strict : Bool
deriving DecidableEq, Repr

/-- The `comment_start` after both the inline scan and the full-line-comment
loop of `_read` (lines 48-67): a full-line comment forces `0`, otherwise
the inline scan's result stands; `none` models the final `None`. -/
def commentStartOf (cfg : PCfg) (line : List Char) : Option Nat :=
  if cfg.commentPrefixes.any (fun p => p.isPrefixOf (pyStrip line)) then some 0
  else inlineCommentStart cfg.inlinePrefixes line

/-- Line 68 of the source: `value = line[:comment_start].strip()`. -/
def lineValue (cfg : PCfg) (line : List Char) : List Char :=
  pyStrip (line.take ((commentStartOf cfg line).getD line.length))

/-- Lines 79-80: `cur_indent_level`, offset of the first non-whitespace
character of the raw line, `0` when there is none. -/
def indentOf (line : List Char) : Nat :=
  (line.findIdx? (fun c => !pyIsSpace c)).getD 0

/-- Model of `SECTCRE.match(value)` for `SECTCRE = r"\[(?P<header>.+)\]"` (an
unanchored `re.match`): the value must start with `[` and, because `.+` is
greedy, the header extends to the last `]`; it must be nonempty. -/
def sectMatch (v : List Char) : Option (List Char) :=
  match v with
  | '[' :: rest =>
      match (rest.reverse.findIdx? (fun c => c = ']')) with
      | some r =>
          let k := rest.length - 1 - r
          if 1 ≤ k then some (rest.take k) else none
      | none => none
  | _ => none

/-- Model of `self._optcre.match(value)` for the option regex built from
`_OPT_NV_TMPL` with the single delimiter `"="`:

  `(?P<option>.*?)\s*(?:(?P<vi>=)\s*(?P<value>.*))?$`

The non-greedy option group means the first split position wins; at a split
position the greedy `\s*` runs to the next non-space character, which must
either be `=` (delimited option, value = rest after further `\s*`) or the
end of the string (valueless option).  Because the delimiter group is
optional, this regex matches every string: the accumulator `acc` holds the
reversed option group seen so far. -/
def optSplitAux : List Char → List Char → List Char × Option (List Char)
  | acc, [] => (acc.reverse, none)
  | acc, d :: t =>
      match (d :: t).dropWhile pyIsSpace with
      | [] => (acc.reverse, none)
      | c :: rest =>
          if c = '=' then (acc.reverse, some (rest.dropWhile pyIsSpace))
          else optSplitAux (d :: acc) t

/-- The option/value split performed by the option regex on `value`. -/
def optSplit (v : List Char) : List Char × Option (List Char) :=
  optSplitAux [] v

/-- The reserved name of the default section (`configparser.DEFAULTSECT`). -/
def defaultSectName : List Char := "DEFAULT".data

/-- The sentinel section synthesized for headerless input (line 110). -/
def fakeSectName : List Char := "TotallyFakeSectionHeader".data

/-- Association-list read, modelling Python `dict` lookup. -/
def alGet {α : Type} : List (List Char × α) → List Char → Option α
  | [], _ => none
  | (k, v) :: t, k' => if k = k' then some v else alGet t k'

/-- Association-list write, modelling Python `dict` assignment: overwrite
in place if the key is present, append otherwise (insertion order kept). -/
def alSet {α : Type} : List (List Char × α) → List Char → α → List (List Char × α)
  | [], k, v => [(k, v)]
  | (k', v') :: t, k, v =>
      if k' = k then (k, v) :: t else (k', v') :: alSet t k v

/-- A stored option value during the scan: `none` is Python `None`
(valueless option), `some ls` is the Python `list[str]` of physical value
lines awaiting the final join. -/
abbrev OptVal := Option (List (List Char))

/-- A section's option dict during the scan. -/
abbrev SecDict := List (List Char × OptVal)

/-- What the Python variable `cursect` points at: the `_defaults` dict or a
named entry of `_sections`. -/
inductive CurRef
  | dflt
  | named (n : List Char)
deriving DecidableEq, Repr

/-- The mutable state of `_read` (local variables plus the parser fields it
mutates).  `indentLevel = none` models `sys.maxsize`; `errors` models the
accumulating `ParsingError` (line number and raw line). -/
structure PState where
  defaults : SecDict
  sections : List (List Char × SecDict)
  elemsSect : List (List Char)
  elemsOpt : List (Option (List Char) × List Char)
  cursect : Option CurRef
  sectname : Option (List Char)
  optname : Option (List Char)
  indentLevel : Option Nat
  errors : List (Nat × List Char)
deriving DecidableEq, Repr

/-- The state at the top of `_read`. -/
def initState : PState :=
  { defaults := [], sections := [], elemsSect := [], elemsOpt := [],
    cursect := none, sectname := none, optname := none,
    indentLevel := some 0, errors := [] }

/-- Read through `cursect`: `none` when there is no current dict or the key
is absent (Python would raise `KeyError`), otherwise the stored value. -/
def curGet (st : PState) (o : List Char) : Option OptVal :=
  match st.cursect with
  | none => none
  | some .dflt => alGet st.defaults o
  | some (.named n) => (alGet st.sections n).bind fun d => alGet d o

/-- Write through `cursect` (`cursect[optname] = v`). -/
def curSet (st : PState) (o : List Char) (v : OptVal) : PState :=
  match st.cursect with
  | none => st
  | some .dflt => { st with defaults := alSet st.defaults o v }
  | some (.named n) =>
      { st with
        sections := alSet st.sections n (alSet ((alGet st.sections n).getD []) o v) }

/-- Python truthiness of the `optname` variable (`None` and `""` are
falsy). -/
def truthy : Option (List Char) → Bool
  | none => false
  | some l => !l.isEmpty

/-- The continuation test of line 81 (`cursect is not None and optname and
cur_indent_level > indent_level`); returns the option to append to. -/
def contTarget (st : PState) (curIndent : Nat) : Option (List Char) :=
  match st.cursect, st.optname, st.indentLevel with
  | some _, some o, some b =>
      if (!o.isEmpty) && decide (b < curIndent) then some o else none
  | _, _, _ => none

/-- Model of `elements_added.add x` (a Python `set`; only membership matters). -/
def insertElem {α : Type} [DecidableEq α] (l : List α) (x : α) : List α :=
  if x ∈ l then l else l ++ [x]

/-- The runtime exceptions `_read` can raise mid-scan: `attr` is the
`AttributeError` from `None.append` when a continuation line follows a
valueless option; `key` is a `KeyError` from `cursect[optname]` on an
absent key (never reachable from the initial state); the two duplicate
errors are the strict-mode raises of lines 92 and 126. -/
inductive RErr
  | attr
  | key
  | dupSect
  | dupOpt
deriving DecidableEq, Repr

/-- Lines 69-77 of the source: the blank-line transition (append an empty
string to an open list-valued option, but only if the line carried no
comment; without `empty_lines_in_values`, reset the indent baseline to
`sys.maxsize` instead). -/
def blankStep (cfg : PCfg) (st : PState) (cs : Option Nat) : Except RErr PState :=
  if cfg.emptyLinesInValues then
    match cs with
    | some _ => .ok st
    | none =>
        match st.cursect with
        | none => .ok st
        | some _ =>
            match st.optname with
            | none => .ok st
            | some o =>
                if o.isEmpty then .ok st
                else
                  match curGet st o with
                  | none => .error .key
                  | some none => .ok st
                  | some (some ls) =>
                      .ok (curSet st o (some (ls ++ [([] : List Char)])))
  else .ok { st with indentLevel := none }

/-- Line 82 of the source: `cursect[optname].append(value)`; a `None`
stored value raises `AttributeError`, an absent key `KeyError`. -/
def contStep (st : PState) (o value : List Char) : Except RErr PState :=
  match curGet st o with
  | none => .error .key
  | some none => .error .attr
  | some (some ls) => .ok (curSet st o (some (ls ++ [value])))

/-- Lines 87-103 of the source: the section-header transitions (merge with
an existing section, switch to the default section, or create a new one);
`optname` is always cleared. -/
def headerStep (cfg : PCfg) (st1 : PState) (hdr : List Char) : Except RErr PState :=
  match alGet st1.sections hdr with
  | some _ =>
      if cfg.strict && decide (hdr ∈ st1.elemsSect) then .error .dupSect
      else .ok { st1 with
        cursect := some (.named hdr), sectname := some hdr,
        elemsSect := insertElem st1.elemsSect hdr, optname := none }
  | none =>
      if hdr = defaultSectName then
        .ok { st1 with
          cursect := some .dflt, sectname := some hdr, optname := none }
      else
        .ok { st1 with
          sections := alSet st1.sections hdr [],
          cursect := some (.named hdr), sectname := some hdr,
          elemsSect := insertElem st1.elemsSect hdr, optname := none }

/-- Lines 105-114 of the source: headerless recovery — synthesize the
sentinel section; the content of the very line that triggers this is not
parsed any further. -/
def fakeStep (st1 : PState) : Except RErr PState :=
  .ok { st1 with
    sections := alSet st1.sections fakeSectName [],
    cursect := some (.named fakeSectName),
    sectname := some fakeSectName,
    elemsSect := insertElem st1.elemsSect fakeSectName,
    optname := none }

/-- Lines 117-137 of the source: the option-line transitions (record an
error for an empty option name but keep going, add the `(sectname,
optname)` pair, and store the value only if the normalized name is not yet
a key of the current section).  With `allow_no_value` the option regex
matches every value, so the `else` error branch of lines 138-143 is
unreachable and does not appear here. -/
def optionCore (cfg : PCfg) (st2 : PState) (sp : List Char × Option (List Char)) :
    Except RErr PState :=
  let oN := pyLower (pyRstrip sp.1)
  if cfg.strict && decide ((st2.sectname, oN) ∈ st2.elemsOpt) then
    .error .dupOpt
  else
    let st3 := { st2 with
      elemsOpt := insertElem st2.elemsOpt (st2.sectname, oN),
      optname := some oN }
    match sp.2 with
    | some v =>
        match curGet st3 oN with
        | some _ => .ok st3
        | none => .ok (curSet st3 oN (some [pyStrip v]))
    | none =>
        match curGet st3 oN with
        | some _ => .ok st3
        | none => .ok (curSet st3 oN none)

/-- Lines 120-123 of the source, wrapping `optionCore`: an empty raw
option name records a parse error (via `_handle_error`) but processing
continues on the same line. -/
def optionStep (cfg : PCfg) (st1 : PState) (lineno : Nat) (line value : List Char) :
    Except RErr PState :=
  optionCore cfg
    (if (optSplit value).1.isEmpty then
       { st1 with errors := st1.errors ++ [(lineno, line)] }
     else st1)
    (optSplit value)

/-- One iteration of the `for lineno, line in enumerate(fp, start=1)` loop
of `_read` (lines 47-143), faithful to the branch order of the source. -/
def processLine (cfg : PCfg) (st : PState) (lineno : Nat) (line : List Char) :
    Except RErr PState :=
  let value := lineValue cfg line
  if value.isEmpty then blankStep cfg st (commentStartOf cfg line)
  else
    match contTarget st (indentOf line) with
    | some o => contStep st o value
    | none =>
        -- line 85: the indent baseline moves to this line
        let st1 := { st with indentLevel := some (indentOf line) }
        match sectMatch value with
        | some hdr => headerStep cfg st1 hdr
        | none =>
            match st1.cursect with
            | none => fakeStep st1
            | some _ => optionStep cfg st1 lineno line value

/-- The whole `for` loop of `_read`. -/
def readAux (cfg : PCfg) : PState → Nat → List (List Char) → Except RErr PState
  | st, _, [] => .ok st
  | st, n, l :: ls =>
      match processLine cfg st n l with
      | .error er => .error er
      | .ok st' => readAux cfg st' (n + 1) ls

/-- Effect of `_join_multiline_values` on one stored value: a `list[str]` becomes
`'\n'.join(val).rstrip()`; a `None` stays `None`. -/
def joinVal : OptVal → Option (List Char)
  | none => none
  | some ls => some (pyRstrip (List.intercalate ['\n'] ls))

/-- A section after the final join. -/
def finalizeSec (d : SecDict) : List (List Char × Option (List Char)) :=
  d.map (fun p => (p.1, joinVal p.2))

/-- The observable outcome of a completed `_read` call: the joined
defaults and sections, and the list of recorded parse errors (the call
raises the aggregate `ParsingError` at line 148 exactly when `errors` is
nonempty). -/
structure ReadOut where
  defaults : List (List Char × Option (List Char))
  sections : List (List Char × List (List Char × Option (List Char)))
  errors : List (Nat × List Char)
deriving DecidableEq, Repr

/-- Join every stored value (lines 145-148). -/
def finalize (st : PState) : ReadOut :=
  { defaults := finalizeSec st.defaults,
    sections := st.sections.map (fun p => (p.1, finalizeSec p.2)),
    errors := st.errors }

/-- A full `_read` of a list of physical lines on a fresh parser. -/
def pyRead (cfg : PCfg) (lines : List (List Char)) : Except RErr ReadOut :=
  (readAux cfg initState 1 lines).map finalize

/-- The configuration installed by `customConfigParser.__init__`:
`allow_no_value=True` (baked into `optSplit`), `delimiters=("=",)` (ditto),
`comment_prefixes=()`, inline prefixes defaulted to `()`, `strict=False`,
and the inherited default `empty_lines_in_values=True`. -/
def cfg0 : PCfg :=
  { commentPrefixes := [], inlinePrefixes := [],
    emptyLinesInValues := true, strict := false }

/-- Joined value of option `o` in section `s` of a read result (`none`
when the section or option is absent, `some none` for a valueless
option). -/
def outOpt (out : ReadOut) (s o : List Char) : Option (Option (List Char)) :=
  (alGet out.sections s).bind fun d => alGet d o

/-- Invariant piece: a recorded `(sectname, optname)` pair resolves to a
stored key of the corresponding section dict. -/
def pairOKc (dfl : SecDict) (secs : List (List Char × SecDict)) :
    Option (List Char) × List Char → Prop
  | (some sn, o) =>
      if sn = defaultSectName then (alGet dfl o).isSome = true
      else ((alGet secs sn).bind fun d => alGet d o).isSome = true
  | (none, _) => False

/-- Invariant piece: `cursect` and `sectname` are coherent.  Before any
section exists (`cursect = None`) nothing has been recorded; afterwards
`sectname` names the dict `cursect` points at, which exists. -/
def Cohc (st : PState) : Prop :=
  match st.cursect with
  | none => st.sections = [] ∧ st.elemsOpt = []
  | some .dflt => st.sectname = some defaultSectName
  | some (.named n) =>
      st.sectname = some n ∧ (alGet st.sections n).isSome = true

/-- The state invariant of the `_read` loop: coherence, the reserved
default-section name is never a key of `_sections`, and every recorded
`(section, option)` pair is backed by a stored key. -/
def Inv (st : PState) : Prop :=
  Cohc st ∧ alGet st.sections defaultSectName = none ∧
    ∀ p ∈ st.elemsOpt, pairOKc st.defaults st.sections p

/-- Specification-side definition (from the spec's words, for comparison
with the code's scan): the earliest index at which any of the inline
prefixes occurs at column 0 or immediately preceded by whitespace. -/
def earliestValidOcc (pfxs : List (List Char)) (line : List Char) : Option Nat :=
  (List.range (line.length + 1)).find?
    (fun i => pfxs.any (fun p => p.isPrefixOf (line.drop i)) && validPos line i)

/-- The state of the `_read` loop after consuming the two lines `[s]` and
`a=1` on a freshly constructed parser (used to instantiate the step
theorems at a concrete reachable state). -/
def stW : PState :=
  { defaults := [], sections := [("s".data, [("a".data, some ["1".data])])],
    elemsSect := ["s".data], elemsOpt := [(some "s".data, "a".data)],
    cursect := some (.named "s".data), sectname := some "s".data,
    optname := some "a".data, indentLevel := some 0, errors := [] }

instance instDecPairOKc (dfl : SecDict) (secs : List (List Char × SecDict))
    (p : Option (List Char) × List Char) : Decidable (pairOKc dfl secs p) := by
  rcases p with ⟨_ | sn, o⟩
  · exact isFalse (fun hh => hh)
  · unfold pairOKc
    dsimp only
    infer_instance

instance instDecCohc (st : PState) : Decidable (Cohc st) := by
  unfold Cohc
  rcases hc : st.cursect with _ | cref
  · dsimp only
    infer_instance
  · rcases cref with _ | m
    · dsimp only
      infer_instance
    · dsimp only
      infer_instance

instance instDecInv (st : PState) : Decidable (Inv st) := by
  unfold Inv
  infer_instance

theorem alGet_alSet_self {α : Type} (l : List (List Char × α)) (k : List Char) (v : α) :
    alGet (alSet l k v) k = some v := by
  induction l with
  | nil => simp [alSet, alGet]
  | cons h t ih =>
      obtain ⟨k', v'⟩ := h
      by_cases hk : k' = k
      · subst hk; simp [alSet, alGet]
      · simp [alSet, alGet, hk, ih]

theorem alGet_alSet_ne {α : Type} (l : List (List Char × α)) (k k' : List Char) (v : α)
    (h : k' ≠ k) : alGet (alSet l k v) k' = alGet l k' := by
  have hk' : k ≠ k' := fun hh => h hh.symm
  induction l with
  | nil => simp [alSet, alGet, hk']
  | cons hd t ih =>
      obtain ⟨k0, v0⟩ := hd
      by_cases hk : k0 = k
      · subst hk; simp [alSet, alGet, hk']
      · simp [alSet, alGet, hk, ih]

theorem alGet_alSet_isSome {α : Type} (l : List (List Char × α)) (k k' : List Char) (v : α)
    (h : (alGet l k').isSome = true) : (alGet (alSet l k v) k').isSome = true := by
  by_cases hk : k' = k
  · subst hk; simp [alGet_alSet_self]
  · rwa [alGet_alSet_ne l k k' v hk]

/-- C2, counterexample.  The claim says parsing `[s]`, `!!!bad!!!`, `a=1`,
`???worse???` reports an aggregate error with exactly two entries.  In
fact, because the parser is constructed with `allow_no_value=True`, the
option regex matches every nonblank non-header line, so both lines parse
as valueless options and the recorded error list is empty (length 0, not
2); no error is raised at all. -/
theorem c2_malformed_lines_counterexample :
    (pyRead cfg0 ["[s]".data, "!!!bad!!!".data, "a=1".data, "???worse???".data]).map
        (fun o => (ReadOut.errors o).length) = .ok 0 ∧ (0 : Nat) ≠ 2 :=
  ⟨rfl, by decide⟩

/-- C2, amended.  Parsing `[s]`, `!!!bad!!!`, `a=1`, `???worse???` with
the parser as constructed succeeds with `s.a = 1`, but the two
malformed-looking lines are stored as valueless options of `s` (the
option regex with `allow_no_value=True` accepts them) and the error list
is empty, so no aggregate error is raised. -/
theorem c2_malformed_lines_amended :
    pyRead cfg0 ["[s]".data, "!!!bad!!!".data, "a=1".data, "???worse???".data]
      = .ok ⟨[], [("s".data,
          [("!!!bad!!!".data, none), ("a".data, some "1".data),
           ("???worse???".data, none)])], []⟩ := rfl

/-- C3, code bug.  The claim (and the spec's error-handling design) says
no exception ever escapes `_read` mid-scan and the only failure is the
aggregate report at end-of-stream.  But on `[s]`, `a`, `  b` the
continuation branch executes `cursect[optname].append(value)` while the
valueless option `a` is stored as `None`, raising an uncaught
`AttributeError` in the middle of the scan. -/
theorem c3_no_midscan_exception_codebug :
    pyRead cfg0 ["[s]".data, "a".data, "  b".data] = .error .attr := rfl

/-- C6, counterexample.  The claim says that for `a=1`, `[s]`, `b=2` the
option `a` lands in the synthesized placeholder section.  In fact the
headerless-recovery branch only creates the placeholder section and
discards the content of the very line that triggered it: the placeholder
comes out empty and `a` is stored nowhere. -/
theorem c6_headerless_counterexample :
    pyRead cfg0 ["a=1".data, "[s]".data, "b=2".data]
      = .ok ⟨[], [(fakeSectName, []),
          ("s".data, [("b".data, some "2".data)])], []⟩ := rfl

/-- C6, amended.  Headerless input synthesizes the placeholder section
`TotallyFakeSectionHeader`; the triggering line's own content is
discarded, later headerless lines land in the placeholder, and `s.b = 2`
with no error.  The placeholder name is an ordinary string, not
unforgeable: an explicit user header `[TotallyFakeSectionHeader]` parses
to exactly that name and merges with the placeholder, so headerless
content can end up in a user-named section. -/
theorem c6_headerless_amended :
    pyRead cfg0 ["x".data, "a=1".data, "[TotallyFakeSectionHeader]".data, "b=2".data]
      = .ok ⟨[], [(fakeSectName,
          [("a".data, some "1".data), ("b".data, some "2".data)])], []⟩ ∧
    sectMatch "[TotallyFakeSectionHeader]".data = some fakeSectName ∧
    fakeSectName ≠ "s".data ∧
    pyRead cfg0 ["a=1".data, "[s]".data, "b=2".data]
      = .ok ⟨[], [(fakeSectName, []),
          ("s".data, [("b".data, some "2".data)])], []⟩ :=
  ⟨rfl, rfl, by decide, rfl⟩

/-- C7, counterexample.  The claim says parsing `[s]`, `a=1  # note` with
the parser as constructed by `customConfigParser.__init__` stores `1` for
`s.a`.  But `__init__` passes `comment_prefixes=()` (to preserve comments)
and leaves `inline_comment_prefixes` at its default `()`, so nothing is
ever stripped: the stored value is `1  # note`, not `1`. -/
theorem c7_comment_counterexample :
    (pyRead cfg0 ["[s]".data, "a=1  # note".data]).map
        (fun o => outOpt o "s".data "a".data)
      = .ok (some (some "1  # note".data)) ∧
    "1  # note".data ≠ "1".data :=
  ⟨rfl, by decide⟩

/-- C7, amended.  With the parser as constructed (both comment-prefix sets
empty, by design, so that comments survive a round trip), parsing `[s]`,
`a=1  # note` stores the full text `1  # note` as the value of `s.a`; the
inline comment is kept inside the value, not stripped. -/
theorem c7_comment_amended :
    pyRead cfg0 ["[s]".data, "a=1  # note".data]
      = .ok ⟨[], [("s".data, [("a".data, some "1  # note".data)])], []⟩ := rfl

/-- C9.  A valueless option stores `None`; a following non-blank line
indented deeper than the option's baseline takes the continuation branch,
which calls `.append` on that `None` and crashes with an uncaught
`AttributeError` mid-scan instead of recording a parse error: witnessed by
the input `[s]`, `a`, `  b`, after whose first two lines `a` is stored
valueless with no recorded error, and whose third line raises. -/
theorem c9_valueless_continuation_attr_error :
    ∃ st : PState,
      readAux cfg0 initState 1 ["[s]".data, "a".data] = .ok st ∧
      curGet st "a".data = some none ∧
      st.errors = [] ∧
      processLine cfg0 st 3 "  b".data = .error .attr ∧
      pyRead cfg0 ["[s]".data, "a".data, "  b".data] = .error .attr :=
  ⟨{ defaults := [], sections := [("s".data, [("a".data, none)])],
     elemsSect := ["s".data], elemsOpt := [(some "s".data, "a".data)],
     cursect := some (.named "s".data), sectname := some "s".data,
     optname := some "a".data, indentLevel := some 0, errors := [] },
   rfl, rfl, rfl, rfl, rfl⟩

theorem curSet_optname (st : PState) (o : List Char) (v : OptVal) :
    (curSet st o v).optname = st.optname := by
  unfold curSet; split <;> rfl

theorem curSet_indentLevel (st : PState) (o : List Char) (v : OptVal) :
    (curSet st o v).indentLevel = st.indentLevel := by
  unfold curSet; split <;> rfl

theorem curSet_elemsOpt (st : PState) (o : List Char) (v : OptVal) :
    (curSet st o v).elemsOpt = st.elemsOpt := by
  unfold curSet; split <;> rfl

theorem curSet_cursect (st : PState) (o : List Char) (v : OptVal) :
    (curSet st o v).cursect = st.cursect := by
  unfold curSet; split <;> rfl

theorem curSet_sectname (st : PState) (o : List Char) (v : OptVal) :
    (curSet st o v).sectname = st.sectname := by
  unfold curSet; split <;> rfl

theorem curSet_errors (st : PState) (o : List Char) (v : OptVal) :
    (curSet st o v).errors = st.errors := by
  unfold curSet; split <;> rfl

theorem optionCore_sets_target (cfg : PCfg) (st2 : PState)
    (sp : List Char × Option (List Char)) (hstrict : cfg.strict = false) :
    ∃ st', optionCore cfg st2 sp = .ok st' ∧
      st'.optname = some (pyLower (pyRstrip sp.1)) ∧
      st'.indentLevel = st2.indentLevel ∧
      st'.cursect = st2.cursect ∧ st'.sectname = st2.sectname := by
  unfold optionCore
  simp only [hstrict, Bool.false_and, Bool.false_eq_true, if_false]
  cases hv2 : sp.2 with
  | none =>
      cases hg : curGet { st2 with
          elemsOpt := insertElem st2.elemsOpt (st2.sectname, pyLower (pyRstrip sp.1)),
          optname := some (pyLower (pyRstrip sp.1)) } (pyLower (pyRstrip sp.1)) with
      | none =>
          refine ⟨_, rfl, ?_, ?_, ?_, ?_⟩ <;>
            simp [curSet_optname, curSet_indentLevel, curSet_cursect, curSet_sectname]
      | some w => exact ⟨_, rfl, rfl, rfl, rfl, rfl⟩
  | some v =>
      cases hg : curGet { st2 with
          elemsOpt := insertElem st2.elemsOpt (st2.sectname, pyLower (pyRstrip sp.1)),
          optname := some (pyLower (pyRstrip sp.1)) } (pyLower (pyRstrip sp.1)) with
      | none =>
          refine ⟨_, rfl, ?_, ?_, ?_, ?_⟩ <;>
            simp [curSet_optname, curSet_indentLevel, curSet_cursect, curSet_sectname]
      | some w => exact ⟨_, rfl, rfl, rfl, rfl, rfl⟩

theorem optionCore_key_present (cfg : PCfg) (st2 : PState)
    (sp : List Char × Option (List Char)) (w : OptVal) (hstrict : cfg.strict = false)
    (hkey : curGet st2 (pyLower (pyRstrip sp.1)) = some w) :
    optionCore cfg st2 sp = .ok { st2 with
      elemsOpt := insertElem st2.elemsOpt (st2.sectname, pyLower (pyRstrip sp.1)),
      optname := some (pyLower (pyRstrip sp.1)) } := by
  unfold optionCore
  simp only [hstrict, Bool.false_and, Bool.false_eq_true, if_false]
  have hkey3 : curGet { st2 with
      elemsOpt := insertElem st2.elemsOpt (st2.sectname, pyLower (pyRstrip sp.1)),
      optname := some (pyLower (pyRstrip sp.1)) } (pyLower (pyRstrip sp.1)) = some w := hkey
  cases hv2 : sp.2 <;> rw [hkey3]

theorem processLine_eq_optionStep (cfg : PCfg) (st : PState) (n : Nat) (ln : List Char)
    (cur : CurRef)
    (hv : lineValue cfg ln ≠ [])
    (hct : contTarget st (indentOf ln) = none)
    (hsm : sectMatch (lineValue cfg ln) = none)
    (hc : st.cursect = some cur) :
    processLine cfg st n ln
      = optionStep cfg { st with indentLevel := some (indentOf ln) } n ln
          (lineValue cfg ln) := by
  have hve : (lineValue cfg ln).isEmpty = false := by
    simpa [List.isEmpty_iff] using hv
  unfold processLine
  simp only [hve, Bool.false_eq_true, if_false, hct, hsm, hc]

theorem processLine_continuation_append (cfg : PCfg) (st : PState) (n : Nat)
    (ln o : List Char) (ls : List (List Char)) (b : Nat)
    (hv : lineValue cfg ln ≠ [])
    (hcs : st.cursect.isSome = true)
    (hopt : st.optname = some o) (hoe : o ≠ [])
    (hind : st.indentLevel = some b) (hlt : b < indentOf ln)
    (hget : curGet st o = some (some ls)) :
    processLine cfg st n ln = .ok (curSet st o (some (ls ++ [lineValue cfg ln]))) := by
  have hve : (lineValue cfg ln).isEmpty = false := by
    simpa [List.isEmpty_iff] using hv
  obtain ⟨c, hc⟩ := Option.isSome_iff_exists.mp hcs
  have hct : contTarget st (indentOf ln) = some o := by
    unfold contTarget
    rw [hc, hopt, hind]
    simp [List.isEmpty_iff, hoe, hlt]
  unfold processLine
  simp only [hve, Bool.false_eq_true, if_false, hct]
  unfold contStep
  rw [hget]

theorem blankStep_mutation (cfg : PCfg) (st st' : PState) (cs : Option Nat)
    (hel : cfg.emptyLinesInValues = true)
    (hr : blankStep cfg st cs = .ok st') :
    st' = st ∨
      (cs = none ∧ ∃ o ls, st.optname = some o ∧ o ≠ [] ∧
        st.cursect.isSome = true ∧ curGet st o = some (some ls) ∧
        st' = curSet st o (some (ls ++ [[]]))) := by
  unfold blankStep at hr
  rw [hel] at hr
  simp only [if_true] at hr
  cases cs with
  | some k => left; exact ((Except.ok.injEq _ _).mp hr).symm
  | none =>
  cases hcur : st.cursect with
  | none =>
      rw [hcur] at hr
      left; exact ((Except.ok.injEq _ _).mp hr).symm
  | some cref =>
  rw [hcur] at hr
  cases hopt : st.optname with
  | none =>
      rw [hopt] at hr
      left; exact ((Except.ok.injEq _ _).mp hr).symm
  | some o =>
  rw [hopt] at hr
  dsimp only at hr
  by_cases hoe : o.isEmpty
  · rw [if_pos hoe] at hr
    left; exact ((Except.ok.injEq _ _).mp hr).symm
  · rw [if_neg hoe] at hr
    cases hget : curGet st o with
    | none => rw [hget] at hr; exact absurd hr (by simp)
    | some w =>
        rw [hget] at hr
        cases w with
        | none => left; exact ((Except.ok.injEq _ _).mp hr).symm
        | some ls =>
            dsimp only at hr
            right
            refine ⟨rfl, o, ls, rfl, ?_, rfl, hget, ((Except.ok.injEq _ _).mp hr).symm⟩
            simpa [List.isEmpty_iff] using hoe

theorem processLine_blank (cfg : PCfg) (st st' : PState) (n : Nat) (ln : List Char)
    (hel : cfg.emptyLinesInValues = true)
    (hbl : lineValue cfg ln = [])
    (hr : processLine cfg st n ln = .ok st') :
    st' = st ∨
      (commentStartOf cfg ln = none ∧ ∃ o ls, st.optname = some o ∧ o ≠ [] ∧
        st.cursect.isSome = true ∧ curGet st o = some (some ls) ∧
        st' = curSet st o (some (ls ++ [[]]))) := by
  unfold processLine at hr
  rw [hbl] at hr
  simp only [List.isEmpty_nil, if_true] at hr
  exact blankStep_mutation cfg st st' (commentStartOf cfg ln) hel hr

theorem stW_reachable : readAux cfg0 initState 1 ["[s]".data, "a=1".data] = .ok stW := rfl

/-- C5.  Parsing `[s]`, `a=1`, `  2`, `  3` joins the continuation lines
into the single value `1\n2\n3` for `s.a`; and in general every line with
nonempty content, strictly deeper indented than the baseline of an open
option holding a line sequence, is appended (trimmed) to that sequence. -/
theorem c5_multiline_continuation :
    pyRead cfg0 ["[s]".data, "a=1".data, "  2".data, "  3".data]
      = .ok ⟨[], [("s".data, [("a".data, some "1\n2\n3".data)])], []⟩ ∧
    ∀ (cfg : PCfg) (st : PState) (n : Nat) (ln o : List Char)
      (ls : List (List Char)) (b : Nat),
      lineValue cfg ln ≠ [] →
      st.cursect.isSome = true →
      st.optname = some o → o ≠ [] →
      st.indentLevel = some b → b < indentOf ln →
      curGet st o = some (some ls) →
      processLine cfg st n ln = .ok (curSet st o (some (ls ++ [lineValue cfg ln]))) :=
  ⟨rfl, processLine_continuation_append⟩

/-- C5, witness: the continuation step applied at the concrete state after
`[s]`, `a=1` and the concrete line `  2`. -/
theorem c5_multiline_continuation_witness :
    lineValue cfg0 "  2".data ≠ [] ∧
    curGet stW "a".data = some (some ["1".data]) ∧
    processLine cfg0 stW 3 "  2".data
      = .ok (curSet stW "a".data (some (["1".data] ++ [lineValue cfg0 "  2".data]))) :=
  ⟨by decide, rfl,
   c5_multiline_continuation.2 cfg0 stW 3 "  2".data "a".data ["1".data] 0
     (by decide) rfl rfl (by decide) rfl (by decide) rfl⟩

/-- C8.  With blank-lines-in-values enabled, parsing `[s]`, `a=1`, an
empty line, `  2` keeps the blank line inside the value (joined value
`1\n\n2`); and in general a blank line mutates the state only when it
carried no comment marker at all and the open option holds a line
sequence, in which case the mutation is exactly appending one empty
string. -/
theorem c8_blank_line_in_value :
    pyRead cfg0 ["[s]".data, "a=1".data, [], "  2".data]
      = .ok ⟨[], [("s".data, [("a".data, some "1\n\n2".data)])], []⟩ ∧
    ∀ (cfg : PCfg) (st st' : PState) (n : Nat) (ln : List Char),
      cfg.emptyLinesInValues = true →
      lineValue cfg ln = [] →
      processLine cfg st n ln = .ok st' →
      st' = st ∨
        (commentStartOf cfg ln = none ∧ ∃ o ls, st.optname = some o ∧ o ≠ [] ∧
          st.cursect.isSome = true ∧ curGet st o = some (some ls) ∧
          st' = curSet st o (some (ls ++ [[]]))) :=
  ⟨rfl, processLine_blank⟩

/-- C8, witness: the blank-line step at the concrete state after `[s]`,
`a=1`, with the empty line as input. -/
theorem c8_blank_line_in_value_witness :
    cfg0.emptyLinesInValues = true ∧
    lineValue cfg0 ([] : List Char) = [] ∧
    (curSet stW "a".data (some (["1".data] ++ [[]])) = stW ∨
      (commentStartOf cfg0 [] = none ∧ ∃ o ls, stW.optname = some o ∧ o ≠ [] ∧
        stW.cursect.isSome = true ∧ curGet stW o = some (some ls) ∧
        curSet stW "a".data (some (["1".data] ++ [[]]))
          = curSet stW o (some (ls ++ [[]])))) :=
  ⟨rfl, rfl,
   c8_blank_line_in_value.2 cfg0 stW
     (curSet stW "a".data (some (["1".data] ++ [[]]))) 3 [] rfl rfl rfl⟩

/-- C10.  Parsing `[s]`, `a=1`, `a=2`, `  3` yields `1\n3` for `s.a`: the
duplicate line's value is discarded but the line still becomes the open
option and the indent baseline, so the following continuation appends to
the first occurrence's stored value; and in general any option line (in
particular a duplicate one) sets `optname` to its normalized name and the
baseline indent to its own indent. -/
theorem c10_duplicate_resets_continuation :
    pyRead cfg0 ["[s]".data, "a=1".data, "a=2".data, "  3".data]
      = .ok ⟨[], [("s".data, [("a".data, some "1\n3".data)])], []⟩ ∧
    ∀ (st : PState) (n : Nat) (ln : List Char) (cur : CurRef),
      lineValue cfg0 ln ≠ [] →
      st.cursect = some cur →
      contTarget st (indentOf ln) = none →
      sectMatch (lineValue cfg0 ln) = none →
      ∃ st', processLine cfg0 st n ln = .ok st' ∧
        st'.optname = some (pyLower (pyRstrip (optSplit (lineValue cfg0 ln)).1)) ∧
        st'.indentLevel = some (indentOf ln) := by
  refine ⟨rfl, ?_⟩
  intro st n ln cur hv hc hct hsm
  rw [processLine_eq_optionStep cfg0 st n ln cur hv hct hsm hc]
  unfold optionStep
  obtain ⟨st', h1, h2, h3, h4, h5⟩ :=
    optionCore_sets_target cfg0
      (if (optSplit (lineValue cfg0 ln)).1.isEmpty then
         { { st with indentLevel := some (indentOf ln) } with
           errors := ({ st with indentLevel := some (indentOf ln) } : PState).errors
             ++ [(n, ln)] }
       else { st with indentLevel := some (indentOf ln) })
      (optSplit (lineValue cfg0 ln)) rfl
  refine ⟨st', h1, h2, ?_⟩
  rw [h3]
  by_cases he : (optSplit (lineValue cfg0 ln)).1.isEmpty
  · rw [if_pos he]
  · rw [if_neg he]

/-- C10, witness: the duplicate option line `a=2` at the concrete state
after `[s]`, `a=1`. -/
theorem c10_duplicate_resets_continuation_witness :
    lineValue cfg0 "a=2".data ≠ [] ∧
    stW.cursect = some (.named "s".data) ∧
    contTarget stW (indentOf "a=2".data) = none ∧
    (∃ st', processLine cfg0 stW 3 "a=2".data = .ok st' ∧
      st'.optname = some (pyLower (pyRstrip (optSplit (lineValue cfg0 "a=2".data)).1)) ∧
      st'.indentLevel = some (indentOf "a=2".data)) :=
  ⟨by decide, rfl, by decide,
   c10_duplicate_resets_continuation.2 stW 3 "a=2".data (.named "s".data)
     (by decide) rfl (by decide) (by decide)⟩

theorem pairOKc_defaults_set (dfl : SecDict) (secs : List (List Char × SecDict))
    (o : List Char) (v : OptVal) (p : Option (List Char) × List Char)
    (h : pairOKc dfl secs p) : pairOKc (alSet dfl o v) secs p := by
  rcases p with ⟨_ | sn, o'⟩
  · exact h
  · unfold pairOKc at h ⊢
    dsimp only at h ⊢
    by_cases hd : sn = defaultSectName
    · rw [if_pos hd] at h ⊢
      exact alGet_alSet_isSome dfl o o' v h
    · rw [if_neg hd] at h ⊢
      exact h

theorem pairOKc_sections_update (dfl : SecDict) (secs : List (List Char × SecDict))
    (m : List Char) (d : SecDict) (o : List Char) (v : OptVal)
    (hm : alGet secs m = some d) (p : Option (List Char) × List Char)
    (h : pairOKc dfl secs p) : pairOKc dfl (alSet secs m (alSet d o v)) p := by
  rcases p with ⟨_ | sn, o'⟩
  · exact h
  · unfold pairOKc at h ⊢
    dsimp only at h ⊢
    by_cases hd : sn = defaultSectName
    · rw [if_pos hd] at h ⊢; exact h
    · rw [if_neg hd] at h ⊢
      by_cases hsm : sn = m
      · subst hsm
        rw [hm] at h
        rw [alGet_alSet_self]
        simpa using alGet_alSet_isSome d o o' v (by simpa using h)
      · rw [alGet_alSet_ne secs m sn _ hsm]
        exact h

theorem pairOKc_sections_new (dfl : SecDict) (secs : List (List Char × SecDict))
    (hdr : List Char) (hnew : alGet secs hdr = none)
    (p : Option (List Char) × List Char)
    (h : pairOKc dfl secs p) : pairOKc dfl (alSet secs hdr []) p := by
  rcases p with ⟨_ | sn, o'⟩
  · exact h
  · unfold pairOKc at h ⊢
    dsimp only at h ⊢
    by_cases hd : sn = defaultSectName
    · rw [if_pos hd] at h ⊢; exact h
    · rw [if_neg hd] at h ⊢
      by_cases hsm : sn = hdr
      · subst hsm; rw [hnew] at h; simp at h
      · rw [alGet_alSet_ne secs hdr sn _ hsm]; exact h

theorem inv_curSet (st : PState) (o : List Char) (v : OptVal) (h : Inv st) :
    Inv (curSet st o v) := by
  obtain ⟨hcoh, hnd, hpairs⟩ := h
  unfold curSet
  cases hc : st.cursect with
  | none => exact ⟨hcoh, hnd, hpairs⟩
  | some cref =>
    cases cref with
    | dflt =>
        refine ⟨?_, hnd, ?_⟩
        · unfold Cohc at hcoh ⊢
          rw [hc] at hcoh
          dsimp only at hcoh ⊢
          exact hcoh
        · intro p hp
          exact pairOKc_defaults_set st.defaults st.sections o v p (hpairs p hp)
    | named m =>
        unfold Cohc at hcoh
        rw [hc] at hcoh
        dsimp only at hcoh
        obtain ⟨d, hd⟩ := Option.isSome_iff_exists.mp hcoh.2
        have hmne : m ≠ defaultSectName := by
          intro hmeq
          rw [hmeq, hnd] at hd
          cases hd
        have hgd : (alGet st.sections m).getD [] = d := by rw [hd]; rfl
        dsimp only
        rw [hgd]
        refine ⟨?_, ?_, ?_⟩
        · unfold Cohc
          dsimp only
          exact ⟨hcoh.1, alGet_alSet_isSome _ m m _ hcoh.2⟩
        · dsimp only
          rw [alGet_alSet_ne st.sections m defaultSectName _ (fun hh => hmne hh.symm)]
          exact hnd
        · intro p hp
          exact pairOKc_sections_update st.defaults st.sections m d o v hd p (hpairs p hp)

theorem inv_indent (st : PState) (x : Option Nat) (h : Inv st) :
    Inv { st with indentLevel := x } := h

theorem inv_blankStep (cfg : PCfg) (st st' : PState) (cs : Option Nat)
    (h : Inv st) (hr : blankStep cfg st cs = .ok st') : Inv st' := by
  unfold blankStep at hr
  by_cases hel : cfg.emptyLinesInValues
  · rw [if_pos hel] at hr
    rcases blankStep_mutation cfg st st' cs hel (by
        unfold blankStep; rw [if_pos hel]; exact hr) with h1 | ⟨_, o, ls, _, _, _, _, h2⟩
    · rw [h1]; exact h
    · rw [h2]; exact inv_curSet st o _ h
  · rw [if_neg hel] at hr
    have := (Except.ok.injEq _ _).mp hr
    rw [← this]
    exact inv_indent st none h

theorem inv_contStep (st st' : PState) (o value : List Char)
    (h : Inv st) (hr : contStep st o value = .ok st') : Inv st' := by
  unfold contStep at hr
  cases hg : curGet st o with
  | none => rw [hg] at hr; cases hr
  | some w =>
      rw [hg] at hr
      cases w with
      | none => cases hr
      | some ls =>
          dsimp only at hr
          rw [← (Except.ok.injEq _ _).mp hr]
          exact inv_curSet st o _ h

theorem inv_headerStep (cfg : PCfg) (st1 st' : PState) (hdr : List Char)
    (h : Inv st1) (hr : headerStep cfg st1 hdr = .ok st') : Inv st' := by
  obtain ⟨hcoh, hnd, hpairs⟩ := h
  unfold headerStep at hr
  cases hg : alGet st1.sections hdr with
  | some d =>
      rw [hg] at hr
      dsimp only at hr
      split at hr
      · cases hr
      · rw [← (Except.ok.injEq _ _).mp hr]
        refine ⟨?_, hnd, hpairs⟩
        unfold Cohc
        dsimp only
        exact ⟨rfl, by rw [hg]; rfl⟩
  | none =>
      rw [hg] at hr
      dsimp only at hr
      by_cases hdd : hdr = defaultSectName
      · rw [if_pos hdd] at hr
        rw [← (Except.ok.injEq _ _).mp hr]
        refine ⟨?_, hnd, hpairs⟩
        unfold Cohc
        dsimp only
        rw [hdd]
      · rw [if_neg hdd] at hr
        rw [← (Except.ok.injEq _ _).mp hr]
        refine ⟨?_, ?_, ?_⟩
        · unfold Cohc
          dsimp only
          exact ⟨rfl, by rw [alGet_alSet_self]; rfl⟩
        · dsimp only
          rw [alGet_alSet_ne st1.sections hdr defaultSectName [] (fun hh => hdd hh.symm)]
          exact hnd
        · intro p hp
          exact pairOKc_sections_new st1.defaults st1.sections hdr hg p (hpairs p hp)

theorem inv_fakeStep (st1 st' : PState) (h : Inv st1) (hcn : st1.cursect = none)
    (hr : fakeStep st1 = .ok st') : Inv st' := by
  obtain ⟨hcoh, hnd, hpairs⟩ := h
  unfold Cohc at hcoh
  rw [hcn] at hcoh
  dsimp only at hcoh
  obtain ⟨hse, hee⟩ := hcoh
  unfold fakeStep at hr
  rw [← (Except.ok.injEq _ _).mp hr]
  refine ⟨?_, ?_, ?_⟩
  · unfold Cohc
    dsimp only
    exact ⟨rfl, by rw [alGet_alSet_self]; rfl⟩
  · dsimp only
    rw [hse]
    decide
  · intro p hp
    dsimp only at hp
    rw [hee] at hp
    cases hp

theorem mem_insertElem {α : Type} [DecidableEq α] (l : List α) (x y : α)
    (h : y ∈ insertElem l x) : y ∈ l ∨ y = x := by
  unfold insertElem at h
  split at h
  · exact Or.inl h
  · rcases List.mem_append.mp h with h1 | h2
    · exact Or.inl h1
    · simp only [List.mem_singleton] at h2
      exact Or.inr h2

theorem optionCore_cases (cfg : PCfg) (st2 st' : PState)
    (sp : List Char × Option (List Char))
    (hr : optionCore cfg st2 sp = .ok st') :
    (∃ w, curGet st2 (pyLower (pyRstrip sp.1)) = some w ∧
        st' = { st2 with
          elemsOpt := insertElem st2.elemsOpt (st2.sectname, pyLower (pyRstrip sp.1)),
          optname := some (pyLower (pyRstrip sp.1)) }) ∨
    (∃ v, st' = curSet { st2 with
          elemsOpt := insertElem st2.elemsOpt (st2.sectname, pyLower (pyRstrip sp.1)),
          optname := some (pyLower (pyRstrip sp.1)) } (pyLower (pyRstrip sp.1)) v) := by
  obtain ⟨spo, spv⟩ := sp
  simp only [optionCore] at hr
  by_cases hst : (cfg.strict && decide ((st2.sectname, pyLower (pyRstrip (spo, spv).1))
      ∈ st2.elemsOpt)) = true
  · rw [if_pos hst] at hr
    cases hr
  · rw [if_neg hst] at hr
    cases spv with
    | none =>
        cases hg : curGet { st2 with
            elemsOpt := insertElem st2.elemsOpt (st2.sectname, pyLower (pyRstrip spo)),
            optname := some (pyLower (pyRstrip spo)) } (pyLower (pyRstrip spo)) with
        | some w =>
            rw [hg] at hr
            dsimp only at hr
            left
            exact ⟨w, hg, ((Except.ok.injEq _ _).mp hr).symm⟩
        | none =>
            rw [hg] at hr
            dsimp only at hr
            right
            exact ⟨none, ((Except.ok.injEq _ _).mp hr).symm⟩
    | some v =>
        cases hg : curGet { st2 with
            elemsOpt := insertElem st2.elemsOpt (st2.sectname, pyLower (pyRstrip spo)),
            optname := some (pyLower (pyRstrip spo)) } (pyLower (pyRstrip spo)) with
        | some w =>
            rw [hg] at hr
            dsimp only at hr
            left
            exact ⟨w, hg, ((Except.ok.injEq _ _).mp hr).symm⟩
        | none =>
            rw [hg] at hr
            dsimp only at hr
            right
            exact ⟨some [pyStrip v], ((Except.ok.injEq _ _).mp hr).symm⟩

theorem inv_option_key (st2 : PState) (cur : CurRef) (oN : List Char)
    (h : Inv st2) (hc : st2.cursect = some cur)
    (hkey : ∃ w, curGet st2 oN = some w) :
    Inv { st2 with
      elemsOpt := insertElem st2.elemsOpt (st2.sectname, oN),
      optname := some oN } := by
  obtain ⟨hcoh, hnd, hpairs⟩ := h
  obtain ⟨w, hw⟩ := hkey
  unfold curGet at hw
  rw [hc] at hw
  unfold Cohc at hcoh
  rw [hc] at hcoh
  cases cur with
  | dflt =>
      dsimp only at hcoh hw
      refine ⟨?_, hnd, ?_⟩
      · unfold Cohc
        dsimp only
        rw [hc]
        exact hcoh
      · intro p hp
        dsimp only at hp
        rcases mem_insertElem _ _ _ hp with hold | hnew
        · exact hpairs p hold
        · subst hnew
          rw [hcoh]
          unfold pairOKc
          dsimp only
          rw [if_pos rfl, hw]
          rfl
  | named m =>
      dsimp only at hcoh hw
      have hmne : m ≠ defaultSectName := by
        intro hmeq
        rw [hmeq, hnd] at hcoh
        simpa using hcoh.2
      refine ⟨?_, hnd, ?_⟩
      · unfold Cohc
        dsimp only
        rw [hc]
        exact hcoh
      · intro p hp
        dsimp only at hp
        rcases mem_insertElem _ _ _ hp with hold | hnew
        · exact hpairs p hold
        · subst hnew
          rw [hcoh.1]
          unfold pairOKc
          dsimp only
          rw [if_neg hmne, hw]
          rfl

theorem inv_option_write (st2 : PState) (cur : CurRef) (oN : List Char) (v : OptVal)
    (h : Inv st2) (hc : st2.cursect = some cur) :
    Inv (curSet { st2 with
      elemsOpt := insertElem st2.elemsOpt (st2.sectname, oN),
      optname := some oN } oN v) := by
  obtain ⟨hcoh, hnd, hpairs⟩ := h
  unfold Cohc at hcoh
  rw [hc] at hcoh
  unfold curSet
  dsimp only
  rw [hc]
  cases cur with
  | dflt =>
      dsimp only at hcoh ⊢
      refine ⟨?_, hnd, ?_⟩
      · exact hcoh
      · intro p hp
        dsimp only at hp
        rcases mem_insertElem _ _ _ hp with hold | hnew
        · exact pairOKc_defaults_set st2.defaults st2.sections oN v p (hpairs p hold)
        · subst hnew
          rw [hcoh]
          unfold pairOKc
          dsimp only
          rw [if_pos rfl, alGet_alSet_self]
          rfl
  | named m =>
      dsimp only at hcoh ⊢
      obtain ⟨d, hd⟩ := Option.isSome_iff_exists.mp hcoh.2
      have hmne : m ≠ defaultSectName := by
        intro hmeq
        rw [hmeq, hnd] at hd
        cases hd
      have hgd : (alGet st2.sections m).getD [] = d := by rw [hd]; rfl
      rw [hgd]
      refine ⟨?_, ?_, ?_⟩
      · exact ⟨hcoh.1, alGet_alSet_isSome _ m m _ hcoh.2⟩
      · dsimp only
        rw [alGet_alSet_ne st2.sections m defaultSectName _ (fun hh => hmne hh.symm)]
        exact hnd
      · intro p hp
        dsimp only at hp
        rcases mem_insertElem _ _ _ hp with hold | hnew
        · exact pairOKc_sections_update st2.defaults st2.sections m d oN v hd p (hpairs p hold)
        · subst hnew
          rw [hcoh.1]
          unfold pairOKc
          dsimp only
          rw [if_neg hmne, alGet_alSet_self]
          dsimp only [Option.bind]
          rw [alGet_alSet_self]
          rfl

theorem inv_optionCore (cfg : PCfg) (st2 st' : PState) (cur : CurRef)
    (sp : List Char × Option (List Char))
    (h : Inv st2) (hc : st2.cursect = some cur)
    (hr : optionCore cfg st2 sp = .ok st') : Inv st' := by
  rcases optionCore_cases cfg st2 st' sp hr with ⟨w, hw, hst⟩ | ⟨v, hst⟩
  · rw [hst]
    exact inv_option_key st2 cur _ h hc ⟨w, hw⟩
  · rw [hst]
    exact inv_option_write st2 cur _ v h hc

theorem inv_optionStep (cfg : PCfg) (st1 st' : PState) (n : Nat) (ln value : List Char)
    (cur : CurRef) (h : Inv st1) (hc : st1.cursect = some cur)
    (hr : optionStep cfg st1 n ln value = .ok st') : Inv st' := by
  unfold optionStep at hr
  by_cases he : (optSplit value).1.isEmpty
  · rw [if_pos he] at hr
    exact inv_optionCore cfg { st1 with errors := st1.errors ++ [(n, ln)] } st' cur
      (optSplit value) h hc hr
  · rw [if_neg he] at hr
    exact inv_optionCore cfg st1 st' cur (optSplit value) h hc hr

theorem inv_processLine (cfg : PCfg) (st st' : PState) (n : Nat) (ln : List Char)
    (h : Inv st) (hr : processLine cfg st n ln = .ok st') : Inv st' := by
  simp only [processLine] at hr
  by_cases hve : (lineValue cfg ln).isEmpty
  · rw [if_pos hve] at hr
    exact inv_blankStep cfg st st' _ h hr
  · rw [if_neg hve] at hr
    cases hct : contTarget st (indentOf ln) with
    | some o =>
        rw [hct] at hr
        dsimp only at hr
        exact inv_contStep st st' o _ h hr
    | none =>
        rw [hct] at hr
        dsimp only at hr
        cases hsm : sectMatch (lineValue cfg ln) with
        | some hdr =>
            rw [hsm] at hr
            dsimp only at hr
            exact inv_headerStep cfg _ st' hdr (inv_indent st (some (indentOf ln)) h) hr
        | none =>
            rw [hsm] at hr
            dsimp only at hr
            cases hcn : st.cursect with
            | none =>
                rw [hcn] at hr
                dsimp only at hr
                exact inv_fakeStep _ st'
                  (hcn ▸ inv_indent st (some (indentOf ln)) h) rfl hr
            | some cur =>
                rw [hcn] at hr
                dsimp only at hr
                exact inv_optionStep cfg _ st' n ln (lineValue cfg ln) cur
                  (hcn ▸ inv_indent st (some (indentOf ln)) h) rfl hr

theorem inv_initState : Inv initState :=
  ⟨⟨rfl, rfl⟩, rfl, by intro p hp; cases hp⟩

theorem inv_readAux (cfg : PCfg) :
    ∀ (lines : List (List Char)) (st st' : PState) (n : Nat),
      Inv st → readAux cfg st n lines = .ok st' → Inv st'
  | [], st, st', n, h, hr => by
      unfold readAux at hr
      rw [← (Except.ok.injEq _ _).mp hr]
      exact h
  | l :: ls, st, st', n, h, hr => by
      unfold readAux at hr
      cases hp : processLine cfg st n l with
      | error e =>
          rw [hp] at hr
          cases hr
      | ok stm =>
          rw [hp] at hr
          dsimp only at hr
          exact inv_readAux cfg ls stm st' (n + 1) (inv_processLine cfg st stm n l h hp) hr

theorem inv_reachable (cfg : PCfg) (lines : List (List Char)) (st' : PState)
    (hr : readAux cfg initState 1 lines = .ok st') : Inv st' :=
  inv_readAux cfg lines initState st' 1 inv_initState hr

/-- C1.  Parsing `[s]`, `a=1`, `a=2` stores `1` for `s.a` with no error;
and in general, on any invariant-respecting state (the invariant holds on
every reachable state), an option line whose `(section, normalized name)`
pair is already in `elements_added` leaves both the sections and the
defaults of the document completely unchanged: the first-seen value wins
and the new value is silently discarded. -/
theorem c1_duplicate_first_wins :
    pyRead cfg0 ["[s]".data, "a=1".data, "a=2".data]
      = .ok ⟨[], [("s".data, [("a".data, some "1".data)])], []⟩ ∧
    ∀ (st : PState) (n : Nat) (ln : List Char) (cur : CurRef),
      Inv st →
      st.cursect = some cur →
      lineValue cfg0 ln ≠ [] →
      contTarget st (indentOf ln) = none →
      sectMatch (lineValue cfg0 ln) = none →
      (st.sectname, pyLower (pyRstrip (optSplit (lineValue cfg0 ln)).1)) ∈ st.elemsOpt →
      ∃ st', processLine cfg0 st n ln = .ok st' ∧
        st'.sections = st.sections ∧ st'.defaults = st.defaults := by
  refine ⟨rfl, ?_⟩
  intro st n ln cur hInv hc hv hct hsm hmem
  obtain ⟨hcoh, hnd, hpairs⟩ := hInv
  have hpair := hpairs _ hmem
  have hkey : ∃ w, curGet st (pyLower (pyRstrip (optSplit (lineValue cfg0 ln)).1))
      = some w := by
    unfold Cohc at hcoh
    rw [hc] at hcoh
    cases cur with
    | dflt =>
        dsimp only at hcoh
        rw [hcoh] at hpair
        unfold pairOKc at hpair
        dsimp only at hpair
        rw [if_pos rfl] at hpair
        unfold curGet
        rw [hc]
        dsimp only
        exact Option.isSome_iff_exists.mp hpair
    | named m =>
        dsimp only at hcoh
        have hmne : m ≠ defaultSectName := by
          intro hmeq
          rw [hmeq, hnd] at hcoh
          simpa using hcoh.2
        rw [hcoh.1] at hpair
        unfold pairOKc at hpair
        dsimp only at hpair
        rw [if_neg hmne] at hpair
        unfold curGet
        rw [hc]
        dsimp only
        exact Option.isSome_iff_exists.mp hpair
  obtain ⟨w, hw⟩ := hkey
  rw [processLine_eq_optionStep cfg0 st n ln cur hv hct hsm hc]
  unfold optionStep
  by_cases he : (optSplit (lineValue cfg0 ln)).1.isEmpty
  · rw [if_pos he]
    exact ⟨_, optionCore_key_present cfg0 _ _ w rfl hw, rfl, rfl⟩
  · rw [if_neg he]
    exact ⟨_, optionCore_key_present cfg0 _ _ w rfl hw, rfl, rfl⟩

/-- C1, witness: the duplicate option line `a=2` at the concrete
(invariant-satisfying) state reached after `[s]`, `a=1`. -/
theorem c1_duplicate_first_wins_witness :
    Inv stW ∧
    (stW.sectname, pyLower (pyRstrip (optSplit (lineValue cfg0 "a=2".data)).1))
      ∈ stW.elemsOpt ∧
    (∃ st', processLine cfg0 stW 3 "a=2".data = .ok st' ∧
      st'.sections = stW.sections ∧ st'.defaults = stW.defaults) :=
  ⟨by decide, by decide,
   c1_duplicate_first_wins.2 stW 3 "a=2".data (.named "s".data)
     (by decide) rfl (by decide) (by decide) (by decide) (by decide)⟩

theorem strFindAux_some (pat : List Char) :
    ∀ (t : List Char) (i r : Nat), strFindAux pat t i = some r →
      i ≤ r ∧ pat.isPrefixOf (t.drop (r - i)) = true ∧
      ∀ d, d < r - i → ¬ pat.isPrefixOf (t.drop d) = true := by
  intro t
  induction t with
  | nil =>
      intro i r h
      unfold strFindAux at h
      split at h
      · rename_i hpp
        obtain rfl : i = r := (Option.some.injEq _ _).mp h
        refine ⟨Nat.le_refl i, ?_, ?_⟩
        · simpa [Nat.sub_self] using hpp
        · intro d hd
          omega
      · cases h
  | cons c t ih =>
      intro i r h
      unfold strFindAux at h
      split at h
      · rename_i hpp
        obtain rfl : i = r := (Option.some.injEq _ _).mp h
        refine ⟨Nat.le_refl i, by simpa [Nat.sub_self] using hpp, ?_⟩
        intro d hd
        omega
      · rename_i hpp
        obtain ⟨h1, h2, h3⟩ := ih (i + 1) r h
        refine ⟨by omega, ?_, ?_⟩
        · have hri : r - i = (r - (i + 1)) + 1 := by omega
          rw [hri]
          simpa using h2
        · intro d hd
          cases d with
          | zero => simpa using hpp
          | succ e =>
              have he : e < r - (i + 1) := by omega
              simpa using h3 e he

theorem strFindAux_none (pat : List Char) :
    ∀ (t : List Char) (i : Nat), strFindAux pat t i = none →
      ∀ d, ¬ pat.isPrefixOf (t.drop d) = true := by
  intro t
  induction t with
  | nil =>
      intro i h d
      unfold strFindAux at h
      split at h
      · cases h
      · rename_i hpp
        simpa using hpp
  | cons c t ih =>
      intro i h d
      unfold strFindAux at h
      split at h
      · cases h
      · rename_i hpp
        cases d with
        | zero => simpa using hpp
        | succ e => simpa using ih (i + 1) h e

theorem strFind_some (l pat : List Char) (s r : Nat) (h : strFind l pat s = some r) :
    s ≤ r ∧ occursAt l pat r ∧ ∀ j, s ≤ j → j < r → ¬ occursAt l pat j := by
  unfold strFind at h
  split at h
  · cases h
  · obtain ⟨h1, h2, h3⟩ := strFindAux_some pat (l.drop s) s r h
    have hdd : ∀ j, s ≤ j → (l.drop s).drop (j - s) = l.drop j := by
      intro j hj
      rw [List.drop_drop]
      congr 1
      omega
    refine ⟨h1, ?_, ?_⟩
    · unfold occursAt
      rw [← hdd r h1]
      exact h2
    · intro j hj1 hj2 hocc
      unfold occursAt at hocc
      exact h3 (j - s) (by omega) (by rw [hdd j hj1]; exact hocc)

theorem strFind_none (l pat : List Char) (s : Nat) (hpne : pat ≠ [])
    (h : strFind l pat s = none) : ∀ j, s ≤ j → ¬ occursAt l pat j := by
  unfold strFind at h
  split at h
  · rename_i hlen
    intro j hj hocc
    unfold occursAt at hocc
    rw [List.drop_eq_nil_of_le (by omega)] at hocc
    cases pat with
    | nil => exact hpne rfl
    | cons a b => simp at hocc
  · intro j hj hocc
    unfold occursAt at hocc
    have hdd : (l.drop s).drop (j - s) = l.drop j := by
      rw [List.drop_drop]
      congr 1
      omega
    exact strFindAux_none pat (l.drop s) s h (j - s) (by rw [hdd]; exact hocc)

theorem inlineRound_single (line p : List Char) (s : Nat) :
    inlineRound line [(p, s)]
      = match strFind line p s with
        | none => ([], none)
        | some li => ([(p, li + 1)], if validPos line li then some li else none) := by
  unfold inlineRound
  dsimp only [List.foldl]
  cases hf : strFind line p s with
  | none => rfl
  | some li =>
      dsimp only
      by_cases hv : validPos line li = true
      · rw [if_pos hv, if_pos hv]
        rfl
      · rw [if_neg hv, if_neg hv]
        rfl

theorem inlineScan_single (line p : List Char) (hp : p ≠ []) :
    ∀ (fuel s : Nat), line.length + 2 ≤ fuel + s →
      (∀ r, inlineScan line fuel [(p, s)] = some r →
        s ≤ r ∧ occursAt line p r ∧ validPos line r = true ∧
        ∀ j, s ≤ j → j < r → occursAt line p j → validPos line j = false) ∧
      (inlineScan line fuel [(p, s)] = none →
        ∀ j, s ≤ j → occursAt line p j → validPos line j = false)
  | 0, s => by
      intro hfs
      constructor
      · intro r h
        simp [inlineScan] at h
      · intro _ j hj hocc
        exfalso
        unfold occursAt at hocc
        rw [List.drop_eq_nil_of_le (by omega)] at hocc
        cases p with
        | nil => exact hp rfl
        | cons a b => simp at hocc
  | fuel + 1, s => by
      intro hfs
      have hround := inlineRound_single line p s
      constructor
      · intro r h
        unfold inlineScan at h
        rw [hround] at h
        cases hf : strFind line p s with
        | none =>
            rw [hf] at h
            dsimp only at h
            simp [inlineScan] at h
        | some li =>
            rw [hf] at h
            dsimp only at h
            obtain ⟨hsle, hocc, hmin⟩ := strFind_some line p s li hf
            by_cases hv : validPos line li = true
            · rw [if_pos hv] at h
              dsimp only at h
              obtain rfl : li = r := (Option.some.injEq _ _).mp h
              exact ⟨hsle, hocc, hv, fun j hj1 hj2 hoc => absurd hoc (hmin j hj1 hj2)⟩
            · rw [if_neg hv] at h
              dsimp only at h
              obtain ⟨h1, h2, h3, h4⟩ :=
                (inlineScan_single line p hp fuel (li + 1) (by omega)).1 r h
              refine ⟨by omega, h2, h3, ?_⟩
              intro j hj1 hj2 hoc
              rcases Nat.lt_or_ge j li with hlt | hge
              · exact absurd hoc (hmin j hj1 hlt)
              · rcases Nat.eq_or_lt_of_le hge with rfl | hgt
                · exact Bool.eq_false_iff.mpr hv
                · exact h4 j (by omega) hj2 hoc
      · intro h
        unfold inlineScan at h
        rw [hround] at h
        cases hf : strFind line p s with
        | none =>
            rw [hf] at h
            intro j hj hocc
            exact absurd hocc (strFind_none line p s hp hf j hj)
        | some li =>
            rw [hf] at h
            dsimp only at h
            obtain ⟨hsle, hocc, hmin⟩ := strFind_some line p s li hf
            by_cases hv : validPos line li = true
            · rw [if_pos hv] at h
              dsimp only at h
              cases h
            · rw [if_neg hv] at h
              dsimp only at h
              have hrec := (inlineScan_single line p hp fuel (li + 1) (by omega)).2 h
              intro j hj hoc
              rcases Nat.lt_or_ge j li with hlt | hge
              · exact absurd hoc (hmin j hj hlt)
              · rcases Nat.eq_or_lt_of_le hge with rfl | hgt
                · exact Bool.eq_false_iff.mpr hv
                · exact hrec j (by omega) hoc

/-- C4, counterexample.  The claim says the content kept is everything
strictly before the earliest whitespace-adjacent (or column-0) occurrence
of any inline prefix.  With the prefixes `#` and `;` on the line
`a#b#c #d ;e`, the earliest such occurrence is the `#` at index 6, but the
code's scan advances all prefixes in lockstep rounds and already accepts
`;` at index 9 in the first round (while `#` is still at its first,
non-whitespace-adjacent occurrence), so the kept content is `a#b#c #d`
rather than the `a#b#c` the claim requires. -/
theorem c4_inline_comment_counterexample :
    earliestValidOcc ["#".data, ";".data] "a#b#c #d ;e".data = some 6 ∧
    commentStartOf ⟨[], ["#".data, ";".data], true, false⟩ "a#b#c #d ;e".data
      = some 9 ∧
    lineValue ⟨[], ["#".data, ";".data], true, false⟩ "a#b#c #d ;e".data
      = "a#b#c #d".data ∧
    pyStrip ("a#b#c #d ;e".data.take 6) = "a#b#c".data ∧
    "a#b#c #d".data ≠ "a#b#c".data :=
  ⟨rfl, rfl, rfl, rfl, by decide⟩

/-- C4, amended.  With a single (nonempty) inline comment prefix the
claim holds as stated: for a line that is not a full-line comment, the
content kept is everything strictly before (trimmed) the earliest
occurrence of the prefix that is at column 0 or whitespace-preceded, and
occurrences not preceded by whitespace never start a comment; when there
is no such occurrence the whole (trimmed) line is kept.  With several
prefixes the scan is round-synchronized and can pick a later valid
occurrence (see the counterexample). -/
theorem c4_inline_comment_single (line p : List Char) (cp : List (List Char))
    (b1 b2 : Bool) (hp : p ≠ [])
    (hfl : cp.any (fun q => q.isPrefixOf (pyStrip line)) = false) :
    (∀ i, commentStartOf ⟨cp, [p], b1, b2⟩ line = some i →
      occursAt line p i ∧ validPos line i = true ∧
      (∀ j, j < i → occursAt line p j → validPos line j = false) ∧
      lineValue ⟨cp, [p], b1, b2⟩ line = pyStrip (line.take i)) ∧
    (commentStartOf ⟨cp, [p], b1, b2⟩ line = none →
      (∀ j, occursAt line p j → validPos line j = false) ∧
      lineValue ⟨cp, [p], b1, b2⟩ line = pyStrip line) := by
  have hcs : commentStartOf ⟨cp, [p], b1, b2⟩ line = inlineCommentStart [p] line := by
    unfold commentStartOf
    rw [hfl]
    simp only [Bool.false_eq_true, if_false]
  have hics : inlineCommentStart [p] line
      = inlineScan line (line.length + 2) [(p, 0)] := rfl
  have hmain := inlineScan_single line p hp (line.length + 2) 0 (by omega)
  constructor
  · intro i hi
    rw [hcs, hics] at hi
    obtain ⟨h1, h2, h3, h4⟩ := hmain.1 i hi
    refine ⟨h2, h3, fun j hj hocc => h4 j (Nat.zero_le j) hj hocc, ?_⟩
    unfold lineValue
    rw [hcs, hics, hi]
    rfl
  · intro hnone
    rw [hcs, hics] at hnone
    refine ⟨fun j hocc => hmain.2 hnone j (Nat.zero_le j) hocc, ?_⟩
    unfold lineValue
    rw [hcs, hics, hnone]
    dsimp only [Option.getD]
    rw [List.take_length]

/-- C4, witness: the single prefix `#` on the line `a#b #c`, where the
first occurrence (index 1) is not whitespace-preceded and the second
(index 4) is the selected comment start. -/
theorem c4_inline_comment_single_witness :
    occursAt "a#b #c".data "#".data 4 ∧
    validPos "a#b #c".data 4 = true ∧
    lineValue ⟨[], ["#".data], true, false⟩ "a#b #c".data
      = pyStrip ("a#b #c".data.take 4) :=
  ⟨((c4_inline_comment_single "a#b #c".data "#".data [] true false
      (by decide) rfl).1 4 rfl).1,
   ((c4_inline_comment_single "a#b #c".data "#".data [] true false
      (by decide) rfl).1 4 rfl).2.1,
   ((c4_inline_comment_single "a#b #c".data "#".data [] true false
      (by decide) rfl).1 4 rfl).2.2.2⟩

end CCP
